import Mathlib

set_option maxRecDepth 100000
set_option maxHeartbeats 1000000

/-!
Shallow embedding of the csteg steganography codec (src/src/main.c).

The codec hides a payload in the two least-significant bits of the color
channels of an RGB or RGBA pixel grid.  The embedding below translates the
bit-level core of `write_data`, `read_data` and `generate_signature`:

* a `Grid` models the decoded raster held in `row_pointers`: `width`,
  `height`, a channel count (3 for RGB, 4 for RGBA) and a flat row-major
  sample store `samples : Nat → Nat` addressed by
  `(row * width + col) * channels + channel`; every sample is an 8-bit
  value (`< 256`) where that matters;
* machine integers (`size_t`, `uint32_t`, `uint8_t`) are modelled as `Nat`
  with explicit `% 2^w` truncation where the C code truncates;
* `malloc`ed buffers that the C code only ever ORs into are modelled as
  zero-initialised (the C code relies on this; `malloc` does not guarantee
  it, which is noted where relevant);
* an out-of-bounds access to `row_pointers` (row `≥ height` or column
  `≥ width`), which is undefined behaviour in C, is modelled by the read
  path returning `none`.
-/

namespace Csteg

/-- Pixel grid as decoded by `read_png_file`: row-major samples, one `Nat`
per 8-bit channel sample, `channels = 3` (RGB) or `4` (RGBA). -/
structure Grid where
  width : Nat
  height : Nat
  channels : Nat
  samples : Nat → Nat

/-- Capacity in bits, `max_data_bits = width * height * 6` from `write_data`. -/
def maxDataBits (g : Grid) : Nat := g.width * g.height * 6

/-- Pixel index for global bit index `i`: `byte_offset = i / 6` in the C code
(each pixel stores 6 payload bits). -/
def byteOffset (i : Nat) : Nat := i / 6

/-- Position of the 2-bit chunk inside its data byte: `bit_offset = 6 - (i % 8)`
in `write_data` and in the filename/payload loops of `read_data`. -/
def bitOffset (i : Nat) : Nat := 6 - i % 8

/-- Channel index for global bit index `i`: `color_offset = (i / 2) % 3`.
Always `< 3`, so the alpha channel (index 3) is never addressed. -/
def colorOffset (i : Nat) : Nat := (i / 2) % 3

/-- Column of the addressed pixel: `x = byte_offset % width`. -/
def colOf (w i : Nat) : Nat := byteOffset i % w

/-- Row of the addressed pixel: `y = byte_offset / width`. -/
def rowOf (w i : Nat) : Nat := byteOffset i / w

/-- Flat sample address of the channel sample touched for bit index `i`:
the C code forms `pixel = &row_pointers[y][x * channels]` and then indexes
`pixel[color_offset]`. -/
def sampleAddr (g : Grid) (i : Nat) : Nat :=
  (rowOf g.width i * g.width + colOf g.width i) * g.channels + colorOffset i

/-- Address of the channel sample used for 2-bit slot (chunk) number `s`;
slot `s` occupies bits `2*s` and `2*s + 1` of the embedded bitstream. -/
def slotAddr (g : Grid) (s : Nat) : Nat := sampleAddr g (2 * s)

/-- Big-endian bytes of a 32-bit length field as produced by the two
masked-shift loops of `generate_signature`: byte `j` is
`(value & (0xFF << (8*(3-j)))) >> (8*(3-j))` truncated to `uint8_t`,
which equals `value / 2^(8*(3-j)) % 256` for every `size_t` value. -/
def beBytes32 (n : Nat) : List Nat :=
  [n / 2 ^ 24 % 256, n / 2 ^ 16 % 256, n / 2 ^ 8 % 256, n % 256]

/-- Signature built by `generate_signature`: 4 bytes of filename length
(most-significant byte first), 4 bytes of payload length (most-significant
byte first), then the raw filename bytes. -/
def generate_signature (filename : List Nat) (file_size : Nat) : List Nat :=
  beBytes32 filename.length ++ beBytes32 file_size ++ filename

/-- The 2-bit chunk of the serialized stream at bit index `i`:
`(data_byte & (0x3 << bit_offset)) >> bit_offset` with
`data_byte = stream[i / 8]` (in `write_data` the byte comes from the
signature buffer for `i < sig_size * 8` and from the streamed data file
afterwards; both agree with indexing the concatenated stream). -/
def chunkOf (stream : List Nat) (i : Nat) : Nat :=
  (stream.getD (i / 8) 0 &&& (3 <<< bitOffset i)) >>> bitOffset i

/-- One write-loop iteration of `write_data` at bit index `i`:
`pixel[color_offset] &= 0xFC; pixel[color_offset] |= data_chunk`. -/
def stampBit (g : Grid) (stream : List Nat) (i : Nat) : Grid :=
  { g with
    samples :=
      Function.update g.samples (sampleAddr g i)
        ((g.samples (sampleAddr g i) &&& 252) ||| chunkOf stream i) }

/-- Grid after stamping chunks `0, …, n-1` (bit indices `0, 2, …, 2*n-2`),
the loops of `write_data` run to completion. -/
def writeChunks (g : Grid) (stream : List Nat) : Nat → Grid
  | 0 => g
  | n + 1 => stampBit (writeChunks g stream n) stream (2 * n)

/-- The embed path of `write_data` on an in-memory grid: build the
signature, check `required_data_bits > max_data_bits` (aborting before any
write when it fails, with required and available byte counts), otherwise
stamp every chunk of `signature ++ payload`.  The returned pair is the
grid (unchanged on failure, as the C code aborts before its write loops)
and the capacity error, `some (requiredBytes, availableBytes)`, if any. -/
def write_data (g : Grid) (filename payload : List Nat) :
    Grid × Option (Nat × Nat) :=
  if (generate_signature filename payload.length).length * 8 + payload.length * 8
      > maxDataBits g then
    (g, some (((generate_signature filename payload.length).length * 8
        + payload.length * 8) / 8, maxDataBits g / 8))
  else
    (writeChunks g (generate_signature filename payload.length ++ payload)
      (((generate_signature filename payload.length).length * 8
        + payload.length * 8) / 2), none)

/-- Read of one embedded chunk at bit index `i` in `read_data`:
`pixel[color_offset] & 0x3`.  The C code performs the access
unconditionally; an access outside `row_pointers` (row `≥ height` or
column `≥ width`) is undefined behaviour and is modelled as `none`. -/
def readChunk (g : Grid) (i : Nat) : Option Nat :=
  if rowOf g.width i < g.height ∧ colOf g.width i < g.width then
    some (g.samples (sampleAddr g i) &&& 3)
  else none

/-- Length-field accumulation loop of `read_data` over a chunk source `f`:
after `m` iterations starting at bit `start`, the accumulator has absorbed
`chunk << ((start + 30) - i)` for `i = start, start+2, …` — the code writes
this as `(SIG_SIZE_BITS - 2) - i` for the filename length (`start = 0`)
and `(SIG_SIZE_BITS * 2 - 2) - i` for the file size (`start = 32`). -/
def readLenGo (f : Nat → Option Nat) (start : Nat) : Nat → Option Nat
  | 0 => some 0
  | m + 1 => do
    let acc ← readLenGo f start m
    let c ← f (start + 2 * m)
    pure (acc ||| (c <<< (30 - 2 * m)))

/-- Accumulation of one output byte from its four chunks in `read_data`:
`buffer[pos] |= (pixel[color_offset] & 0x3) << bit_offset` with
`bit_offset = 6 - (i % 8)`; `start` is byte-aligned in every call.  The
`malloc`ed buffer is modelled as zero-initialised. -/
def readByteGo (f : Nat → Option Nat) (start : Nat) : Nat → Option Nat
  | 0 => some 0
  | m + 1 => do
    let acc ← readByteGo f start m
    let c ← f (start + 2 * m)
    pure (acc ||| (c <<< (6 - 2 * m)))

/-- Sequence of `count` bytes recovered by the filename/payload loops of
`read_data`, each byte assembled from four consecutive chunks
(`bit_offset` 6, 4, 2, 0), advancing the buffer position when
`bit_offset == 0`. -/
def readBytesGo (f : Nat → Option Nat) (start : Nat) : Nat → Option (List Nat)
  | 0 => some []
  | j + 1 => do
    let bs ← readBytesGo f start j
    let b ← readByteGo f (start + 8 * j) 4
    pure (bs ++ [b])

/-- The whole extract path of `read_data` over an abstract chunk source:
read `data_filename_length` from bits 0–31, `data_file_size` from bits
32–63, then the filename bytes and the data bytes.  The C code performs no
validation of the decoded lengths. -/
def extractChunks (f : Nat → Option Nat) : Option (List Nat × List Nat) := do
  let fl ← readLenGo f 0 16
  let pl ← readLenGo f 32 16
  let name ← readBytesGo f 64 fl
  let data ← readBytesGo f (64 + fl * 8) pl
  pure (name, data)

/-- Extract path of `read_data` on a grid: every grid access goes through
`readChunk`. -/
def read_data (g : Grid) : Option (List Nat × List Nat) :=
  extractChunks (readChunk g)

/-- Pure value of the length-field accumulator of `read_data` after `m`
iterations on chunk values `c 0, c 1, …` (the formula used for the two
32-bit header fields). -/
def headerAccF (c : Nat → Nat) : Nat → Nat
  | 0 => 0
  | m + 1 => headerAccF c m ||| (c m <<< (30 - 2 * m))

/-- Pure value of the byte accumulator of `read_data` after `m` iterations
on chunk values `c 0, c 1, …` (the formula used for filename and payload
bytes). -/
def byteAccF (c : Nat → Nat) : Nat → Nat
  | 0 => 0
  | m + 1 => byteAccF c m ||| (c m <<< (6 - 2 * m))

/-- Closed form of the header accumulator: the big-endian weighted sum of
the first `m` chunks. -/
def sumHdr (c : Nat → Nat) : Nat → Nat
  | 0 => 0
  | m + 1 => sumHdr c m + c m * 2 ^ (30 - 2 * m)

/-- Concrete 4×3 RGB grid, all samples zero (capacity 72 bits). -/
def gridA : Grid := ⟨4, 3, 3, fun _ => 0⟩

/-- Concrete 4×3 RGBA grid, all samples zero. -/
def gridB : Grid := ⟨4, 3, 4, fun _ => 0⟩

/-- Concrete 4×3 RGB grid whose samples all have their two low bits clear
but every high bit set. -/
def gridC : Grid := ⟨4, 3, 3, fun _ => 252⟩

/-- Concrete 4×3 RGB grid whose embedded header decodes to
`filename_length = 0` and `payload_length = 2` (sample 31 carries the last
chunk of the payload-length field), so the decoded lengths need 80 bits
while the grid holds only 72. -/
def gridHdr : Grid := ⟨4, 3, 3, fun a => if a = 31 then 2 else 0⟩

/-! Bitwise arithmetic helpers. -/

/-- Disjoint OR is addition: when `a` has no bits below position `k` and
`b` has no bits at or above position `k`, `a ||| b = a + b`. -/
lemma lor_eq_add (k : Nat) : ∀ a b : Nat, a % 2 ^ k = 0 → b < 2 ^ k → a ||| b = a + b := by
  induction k with
  | zero =>
    intro a b _ hb
    have hb0 : b = 0 := by omega
    subst hb0; simp
  | succ k ih =>
    intro a b ha hb
    obtain ⟨q, hq⟩ := Nat.dvd_of_mod_eq_zero ha
    have hadef : a = Nat.bit false (2 ^ k * q) := by
      simp only [Nat.bit, cond_false]
      rw [hq]; ring
    have hbdef : b = Nat.bit (Nat.bodd b) (Nat.div2 b) := (Nat.bit_decomp b).symm
    have hdiv2 : Nat.div2 b < 2 ^ k := by
      rw [Nat.div2_val]
      have h2 : b < 2 ^ k * 2 := by rw [← pow_succ]; exact hb
      exact Nat.div_lt_of_lt_mul (by omega)
    have hmod : 2 ^ k * q % 2 ^ k = 0 := Nat.mul_mod_right _ _
    rw [hadef, hbdef, Nat.lor_bit]
    rw [ih _ _ hmod hdiv2]
    have hsplit := Nat.bodd_add_div2 b
    simp only [Bool.false_or, Nat.bit]
    cases Nat.bodd b <;> simp <;> omega

/-- Reading the low two bits: `x & 0x3 = x % 4`. -/
lemma and_3_eq (x : Nat) : x &&& 3 = x % 4 := by
  simpa using Nat.and_pow_two_sub_one_eq_mod x 2

/-- Masking to a byte: `x & 0xFF = x % 256`. -/
lemma and_255_eq (x : Nat) : x &&& 255 = x % 256 := by
  simpa using Nat.and_pow_two_sub_one_eq_mod x 8

/-- Clearing the low two bits of a sample: `x & 0xFC` keeps bits 2–7. -/
lemma and_252_eq (x : Nat) : x &&& 252 = x % 256 / 4 * 4 := by
  have h255 : (255 : Nat) &&& 252 = 252 := by decide
  have h1 : x &&& 252 = x &&& 255 &&& 252 := by rw [Nat.and_assoc, h255]
  rw [h1, and_255_eq]
  have h2 : ∀ w < 256, w &&& 252 = w / 4 * 4 := by decide
  exact h2 _ (Nat.mod_lt _ (by norm_num))

/-- Value written into a touched channel sample:
`(v & 0xFC) | chunk = (v % 256 / 4) * 4 + chunk` for a 2-bit chunk. -/
lemma stamp_val (v c : Nat) (hc : c < 4) : (v &&& 252) ||| c = v % 256 / 4 * 4 + c := by
  rw [and_252_eq]
  have h4 : (2 : Nat) ^ 2 = 4 := by norm_num
  exact lor_eq_add 2 _ _ (by rw [h4]; omega) (by rw [h4]; omega)

/-- Chunk extraction from a byte: `(b & (0x3 << k)) >> k` is the pair of
bits at positions `k, k+1`. -/
lemma chunk_char : ∀ b < 256, ∀ k < 8, (b &&& (3 <<< k)) >>> k = b / 2 ^ k % 4 := by decide

/-- The chunk value stamped or compared at bit index `i`, as arithmetic on
the stream byte. -/
lemma chunkOf_eq (stream : List Nat) (i : Nat) (hb : stream.getD (i / 8) 0 < 256) :
    chunkOf stream i = stream.getD (i / 8) 0 / 2 ^ bitOffset i % 4 :=
  chunk_char _ hb _ (by unfold bitOffset; omega)

/-- Every chunk is a 2-bit value. -/
lemma chunkOf_lt (stream : List Nat) (i : Nat) : chunkOf stream i < 4 := by
  unfold chunkOf
  rw [Nat.shiftRight_eq_div_pow]
  have h1 : stream.getD (i / 8) 0 &&& (3 <<< bitOffset i) ≤ 3 <<< bitOffset i :=
    Nat.and_le_right
  have h2 : (3 : Nat) <<< bitOffset i = 3 * 2 ^ bitOffset i := Nat.shiftLeft_eq 3 _
  have hp : 0 < 2 ^ bitOffset i := pow_pos (by norm_num) _
  have h3 : (stream.getD (i / 8) 0 &&& (3 <<< bitOffset i)) / 2 ^ bitOffset i
      ≤ 3 * 2 ^ bitOffset i / 2 ^ bitOffset i := by
    apply Nat.div_le_div_right
    omega
  rw [Nat.mul_div_cancel _ hp] at h3
  omega

/-! Address arithmetic and the write-path characterization. -/

@[simp] lemma stampBit_width (g : Grid) (stream : List Nat) (i : Nat) :
    (stampBit g stream i).width = g.width := rfl

@[simp] lemma stampBit_height (g : Grid) (stream : List Nat) (i : Nat) :
    (stampBit g stream i).height = g.height := rfl

@[simp] lemma stampBit_channels (g : Grid) (stream : List Nat) (i : Nat) :
    (stampBit g stream i).channels = g.channels := rfl

@[simp] lemma writeChunks_width (g : Grid) (stream : List Nat) :
    ∀ n, (writeChunks g stream n).width = g.width := by
  intro n; induction n with
  | zero => rfl
  | succ n ih => simp [writeChunks, ih]

@[simp] lemma writeChunks_height (g : Grid) (stream : List Nat) :
    ∀ n, (writeChunks g stream n).height = g.height := by
  intro n; induction n with
  | zero => rfl
  | succ n ih => simp [writeChunks, ih]

@[simp] lemma writeChunks_channels (g : Grid) (stream : List Nat) :
    ∀ n, (writeChunks g stream n).channels = g.channels := by
  intro n; induction n with
  | zero => rfl
  | succ n ih => simp [writeChunks, ih]

/-- Recombining the row/column decomposition gives back the pixel index. -/
lemma pixel_recompose (w b : Nat) : b / w * w + b % w = b := by
  rw [Nat.mul_comm]
  exact Nat.div_add_mod b w

/-- The flat sample address depends only on the channel count:
`sampleAddr g i = (i / 6) * channels + (i / 2) % 3`. -/
lemma sampleAddr_eq (g : Grid) (i : Nat) :
    sampleAddr g i = i / 6 * g.channels + i / 2 % 3 := by
  unfold sampleAddr rowOf colOf byteOffset colorOffset
  rw [pixel_recompose]

/-- Address of slot `s` in closed form. -/
lemma slotAddr_eq (g : Grid) (s : Nat) :
    slotAddr g s = s / 3 * g.channels + s % 3 := by
  unfold slotAddr
  rw [sampleAddr_eq]
  have h1 : 2 * s / 6 = s / 3 := by omega
  have h2 : 2 * s / 2 % 3 = s % 3 := by omega
  rw [h1, h2]

/-- Distinct slots go to distinct channel samples (for 3- or 4-channel
grids). -/
lemma slotAddr_inj (g : Grid) (hch : g.channels = 3 ∨ g.channels = 4) {s t : Nat}
    (h : slotAddr g s = slotAddr g t) : s = t := by
  rw [slotAddr_eq, slotAddr_eq] at h
  rcases hch with h3 | h3 <;> rw [h3] at h <;> omega

/-- Samples not addressed by any stamped slot are untouched. -/
lemma writeChunks_untouched (g : Grid) (stream : List Nat) :
    ∀ n a, (∀ s, s < n → a ≠ slotAddr g s) →
      (writeChunks g stream n).samples a = g.samples a := by
  intro n
  induction n with
  | zero => intro a _; rfl
  | succ n ih =>
    intro a ha
    have haddr : sampleAddr (writeChunks g stream n) (2 * n) = slotAddr g n := by
      rw [sampleAddr_eq, writeChunks_channels]
      rw [slotAddr_eq]
      have h1 : 2 * n / 6 = n / 3 := by omega
      have h2 : 2 * n / 2 % 3 = n % 3 := by omega
      rw [h1, h2]
    show (stampBit (writeChunks g stream n) stream (2 * n)).samples a = g.samples a
    unfold stampBit
    simp only
    rw [Function.update_noteq (by rw [haddr]; exact ha n (by omega))]
    exact ih a (fun s hs => ha s (by omega))

/-- A sample addressed by slot `s < n` holds the stamped value: original
sample with the low two bits replaced by chunk `s` of the stream. -/
lemma writeChunks_touched (g : Grid) (stream : List Nat)
    (hch : g.channels = 3 ∨ g.channels = 4) :
    ∀ n s, s < n →
      (writeChunks g stream n).samples (slotAddr g s)
        = (g.samples (slotAddr g s) &&& 252) ||| chunkOf stream (2 * s) := by
  intro n
  induction n with
  | zero => intro s hs; omega
  | succ n ih =>
    intro s hs
    have haddr : sampleAddr (writeChunks g stream n) (2 * n) = slotAddr g n := by
      rw [sampleAddr_eq, writeChunks_channels, slotAddr_eq]
      have h1 : 2 * n / 6 = n / 3 := by omega
      have h2 : 2 * n / 2 % 3 = n % 3 := by omega
      rw [h1, h2]
    show (stampBit (writeChunks g stream n) stream (2 * n)).samples (slotAddr g s) = _
    unfold stampBit
    simp only
    by_cases hsn : s = n
    · subst hsn
      rw [haddr, Function.update_same]
      rw [writeChunks_untouched g stream s (slotAddr g s)
        (fun t ht hteq => (by omega : ¬ s = t) (slotAddr_inj g hch hteq))]
    · rw [Function.update_noteq
        (by rw [haddr]; exact fun he => hsn (slotAddr_inj g hch he))]
      exact ih s (by omega)

/-! Read-path lemmas. -/

/-- For a bit index whose pixel lies inside the grid, `readChunk` succeeds
and returns the low two bits of the addressed sample. -/
lemma readChunk_eq (g : Grid) (i : Nat) (hw : 0 < g.width)
    (h : i / 6 < g.width * g.height) :
    readChunk g i = some (g.samples (sampleAddr g i) &&& 3) := by
  unfold readChunk rowOf colOf byteOffset
  rw [if_pos]
  exact ⟨Nat.div_lt_of_lt_mul h, Nat.mod_lt _ hw⟩

/-- Reading slot `s` back from the grid produced by stamping `n > s` chunks
yields exactly chunk `s` of the stream. -/
lemma readChunk_writeChunks (g : Grid) (stream : List Nat)
    (hch : g.channels = 3 ∨ g.channels = 4) (hw : 0 < g.width)
    {s n : Nat} (hs : s < n) (hn : n ≤ 3 * (g.width * g.height)) :
    readChunk (writeChunks g stream n) (2 * s) = some (chunkOf stream (2 * s)) := by
  have hdiv : 2 * s / 6 = s / 3 := by omega
  have hpix : 2 * s / 6 < g.width * g.height := by
    rw [hdiv]
    exact Nat.div_lt_of_lt_mul (by omega)
  rw [readChunk_eq (writeChunks g stream n) (2 * s)
    (by rw [writeChunks_width]; exact hw)
    (by rw [writeChunks_width, writeChunks_height]; exact hpix)]
  have haddr : sampleAddr (writeChunks g stream n) (2 * s) = slotAddr g s := by
    rw [sampleAddr_eq, writeChunks_channels, slotAddr_eq]
    have h2 : 2 * s / 2 % 3 = s % 3 := by omega
    rw [hdiv, h2]
  rw [haddr, writeChunks_touched g stream hch n s hs]
  rw [and_3_eq, stamp_val _ _ (chunkOf_lt stream (2 * s))]
  have hc := chunkOf_lt stream (2 * s)
  congr 1
  omega

/-- The length-field loop over a chunk source that yields `c k` at step `k`
computes `headerAccF c`. -/
lemma readLenGo_eq (f : Nat → Option Nat) (c : Nat → Nat) (start : Nat) :
    ∀ m, (∀ k, k < m → f (start + 2 * k) = some (c k)) →
      readLenGo f start m = some (headerAccF c m) := by
  intro m
  induction m with
  | zero => intro _; rfl
  | succ m ih =>
    intro h
    simp only [readLenGo]
    rw [ih (fun k hk => h k (by omega)), h m (by omega)]
    rfl

/-- The single-byte loop over a chunk source that yields `c k` at step `k`
computes `byteAccF c`. -/
lemma readByteGo_eq (f : Nat → Option Nat) (c : Nat → Nat) (start : Nat) :
    ∀ m, (∀ k, k < m → f (start + 2 * k) = some (c k)) →
      readByteGo f start m = some (byteAccF c m) := by
  intro m
  induction m with
  | zero => intro _; rfl
  | succ m ih =>
    intro h
    simp only [readByteGo]
    rw [ih (fun k hk => h k (by omega)), h m (by omega)]
    rfl

/-- The byte-sequence loop computes one `byteAccF` per output byte. -/
lemma readBytesGo_eq (f : Nat → Option Nat) (c : Nat → Nat) (start : Nat) :
    ∀ m, (∀ k, k < 4 * m → f (start + 2 * k) = some (c k)) →
      readBytesGo f start m
        = some ((List.range m).map fun j => byteAccF (fun mm => c (4 * j + mm)) 4) := by
  intro m
  induction m with
  | zero => intro _; rfl
  | succ m ih =>
    intro h
    simp only [readBytesGo]
    rw [ih (fun k hk => h k (by omega))]
    have hbyte : readByteGo f (start + 8 * m) 4
        = some (byteAccF (fun mm => c (4 * m + mm)) 4) := by
      apply readByteGo_eq
      intro k hk
      have harg : start + 8 * m + 2 * k = start + 2 * (4 * m + k) := by omega
      rw [harg]
      exact h (4 * m + k) (by omega)
    rw [hbyte]
    simp [List.range_succ]

/-! Values of the two reassembly formulas. -/

/-- The nested-OR header accumulator equals the weighted big-endian sum of
the chunks (each OR adds a fresh, lower pair of bits). -/
lemma headerAccF_eq_sumHdr (c : Nat → Nat) (hc : ∀ k, k < 16 → c k < 4) :
    ∀ m, m ≤ 16 → headerAccF c m = sumHdr c m ∧ sumHdr c m % 2 ^ (32 - 2 * m) = 0 := by
  intro m
  induction m with
  | zero => intro _; exact ⟨rfl, by simp [sumHdr]⟩
  | succ m ih =>
    intro hm
    obtain ⟨h1, h2⟩ := ih (by omega)
    have he : 32 - 2 * m = (30 - 2 * m) + 2 := by omega
    have hstep : headerAccF c (m + 1) = sumHdr c (m + 1) := by
      simp only [headerAccF, sumHdr]
      rw [h1, Nat.shiftLeft_eq]
      apply lor_eq_add (32 - 2 * m) _ _ h2
      rw [he, pow_add]
      have h4 : c m < 4 := hc m (by omega)
      have hx : (0 : Nat) < 2 ^ (30 - 2 * m) := pow_pos (by norm_num) _
      calc c m * 2 ^ (30 - 2 * m) < 4 * 2 ^ (30 - 2 * m) := by
            exact (mul_lt_mul_right hx).mpr h4
        _ = 2 ^ (30 - 2 * m) * 2 ^ 2 := by ring
    refine ⟨hstep, ?_⟩
    have he2 : 32 - 2 * (m + 1) = 30 - 2 * m := by omega
    rw [he2]
    apply Nat.mod_eq_zero_of_dvd
    simp only [sumHdr]
    apply Nat.dvd_add
    · exact dvd_trans (pow_dvd_pow 2 (by omega)) (Nat.dvd_of_mod_eq_zero h2)
    · exact dvd_mul_left _ _

/-- Value of one assembled byte from its four 2-bit chunks. -/
lemma byteAccF_val (c : Nat → Nat) (hc : ∀ m, m < 4 → c m < 4) :
    byteAccF c 4 = 64 * c 0 + 16 * c 1 + 4 * c 2 + c 3 := by
  have key : ∀ c0 < 4, ∀ c1 < 4, ∀ c2 < 4, ∀ c3 < 4,
      ((((0 : Nat) ||| (c0 <<< 6)) ||| (c1 <<< 4)) ||| (c2 <<< 2)) ||| (c3 <<< 0)
        = 64 * c0 + 16 * c1 + 4 * c2 + c3 := by decide
  have h := key (c 0) (hc 0 (by omega)) (c 1) (hc 1 (by omega))
    (c 2) (hc 2 (by omega)) (c 3) (hc 3 (by omega))
  simp only [byteAccF]
  norm_num at h ⊢
  exact h

/-- Reassembling a 32-bit value from the sixteen 2-bit chunks of its four
big-endian bytes gives the value back. -/
lemma sumHdr_val (c : Nat → Nat) (v : Nat) (hv : v < 2 ^ 32)
    (hc : ∀ k, k < 16 →
      c k = v / 2 ^ (24 - 8 * (k / 4)) % 256 / 2 ^ (6 - 2 * (k % 4)) % 4) :
    sumHdr c 16 = v := by
  simp only [sumHdr]
  rw [hc 0 (by norm_num), hc 1 (by norm_num), hc 2 (by norm_num), hc 3 (by norm_num),
    hc 4 (by norm_num), hc 5 (by norm_num), hc 6 (by norm_num), hc 7 (by norm_num),
    hc 8 (by norm_num), hc 9 (by norm_num), hc 10 (by norm_num), hc 11 (by norm_num),
    hc 12 (by norm_num), hc 13 (by norm_num), hc 14 (by norm_num), hc 15 (by norm_num)]
  norm_num
  omega

/-- Reassembling one byte from its four 2-bit chunks gives the byte back. -/
lemma byte_from_chunks (b : Nat) (hb : b < 256) (c : Nat → Nat)
    (hc : ∀ m, m < 4 → c m = b / 2 ^ (6 - 2 * m) % 4) :
    byteAccF c 4 = b := by
  rw [byteAccF_val c (by intro m hm; rw [hc m hm]; omega)]
  rw [hc 0 (by norm_num), hc 1 (by norm_num), hc 2 (by norm_num), hc 3 (by norm_num)]
  norm_num
  omega

/-- A list rebuilt elementwise from its `getD` values is itself. -/
lemma map_range_getD (l : List Nat) (v : Nat → Nat)
    (hv : ∀ j, j < l.length → v j = l.getD j 0) :
    (List.range l.length).map v = l := by
  apply List.ext_getElem (by simp)
  intro i h1 h2
  simp only [List.getElem_map, List.getElem_range]
  rw [hv i h2, List.getD_eq_getElem l 0 h2]

/-! Byte layout of the embedded stream `signature ++ payload`. -/

/-- Bytes 0–3 of the stream: big-endian filename length. -/
lemma stream_byte_lo (f p : List Nat) (j : Nat) (hj : j < 4) :
    (generate_signature f p.length ++ p).getD j 0
      = f.length / 2 ^ (24 - 8 * j) % 256 := by
  unfold generate_signature
  rw [List.append_assoc, List.append_assoc]
  rw [List.getD_append _ _ 0 j (by simp [beBytes32]; omega)]
  interval_cases j <;> simp [beBytes32]

/-- Bytes 4–7 of the stream: big-endian payload length. -/
lemma stream_byte_hi (f p : List Nat) (j : Nat) (hj : j < 4) :
    (generate_signature f p.length ++ p).getD (4 + j) 0
      = p.length / 2 ^ (24 - 8 * j) % 256 := by
  unfold generate_signature
  rw [List.append_assoc, List.append_assoc]
  rw [List.getD_append_right _ _ 0 (4 + j) (by simp [beBytes32])]
  have hlen : (beBytes32 f.length).length = 4 := by simp [beBytes32]
  rw [hlen]
  have hsub : 4 + j - 4 = j := by omega
  rw [hsub]
  rw [List.getD_append _ _ 0 j (by simp [beBytes32]; omega)]
  interval_cases j <;> simp [beBytes32]

/-- Bytes 8 … 8+filename_length-1 of the stream: the filename bytes. -/
lemma stream_byte_name (f p : List Nat) (j : Nat) (hj : j < f.length) :
    (generate_signature f p.length ++ p).getD (8 + j) 0 = f.getD j 0 := by
  unfold generate_signature
  rw [List.append_assoc, List.append_assoc]
  rw [List.getD_append_right _ _ 0 (8 + j) (by simp [beBytes32]; omega)]
  have hlen : (beBytes32 f.length).length = 4 := by simp [beBytes32]
  rw [hlen]
  have hsub : 8 + j - 4 = 4 + j := by omega
  rw [hsub]
  rw [List.getD_append_right _ _ 0 (4 + j) (by simp [beBytes32])]
  have hlen2 : (beBytes32 p.length).length = 4 := by simp [beBytes32]
  rw [hlen2]
  have hsub2 : 4 + j - 4 = j := by omega
  rw [hsub2]
  rw [List.getD_append _ _ 0 j hj]

/-- Bytes 8+filename_length … of the stream: the payload bytes. -/
lemma stream_byte_payload (f p : List Nat) (j : Nat) (hj : j < p.length) :
    (generate_signature f p.length ++ p).getD (8 + f.length + j) 0 = p.getD j 0 := by
  unfold generate_signature
  rw [List.append_assoc, List.append_assoc]
  rw [List.getD_append_right _ _ 0 (8 + f.length + j) (by simp [beBytes32]; omega)]
  have hlen : (beBytes32 f.length).length = 4 := by simp [beBytes32]
  rw [hlen]
  have hsub : 8 + f.length + j - 4 = 4 + (f.length + j) := by omega
  rw [hsub]
  rw [List.getD_append_right _ _ 0 (4 + (f.length + j)) (by simp [beBytes32])]
  have hlen2 : (beBytes32 p.length).length = 4 := by simp [beBytes32]
  rw [hlen2]
  have hsub2 : 4 + (f.length + j) - 4 = f.length + j := by omega
  rw [hsub2]
  rw [List.getD_append_right _ _ 0 (f.length + j) (by omega)]
  have hsub3 : f.length + j - f.length = j := by omega
  rw [hsub3]

/-- Core round-trip: reading back a grid into which `signature ++ payload`
has been fully stamped recovers the filename and payload exactly. -/
lemma read_after_write (g : Grid) (f p : List Nat)
    (hch : g.channels = 3 ∨ g.channels = 4)
    (hf : ∀ b ∈ f, b < 256) (hp : ∀ b ∈ p, b < 256)
    (hfl : f.length < 2 ^ 32) (hpl : p.length < 2 ^ 32)
    (hcap : (8 + f.length + p.length) * 8 ≤ maxDataBits g) :
    read_data (writeChunks g (generate_signature f p.length ++ p)
      ((8 + f.length + p.length) * 4)) = some (f, p) := by
  have hw : 0 < g.width := by
    rcases Nat.eq_zero_or_pos g.width with h0 | h0
    · exfalso
      unfold maxDataBits at hcap
      rw [h0] at hcap
      simp at hcap
    · exact h0
  have hn : (8 + f.length + p.length) * 4 ≤ 3 * (g.width * g.height) := by
    unfold maxDataBits at hcap
    have h6 : g.width * g.height * 6 = 6 * (g.width * g.height) := by ring
    rw [h6] at hcap
    omega
  have hread : ∀ s, s < (8 + f.length + p.length) * 4 →
      readChunk (writeChunks g (generate_signature f p.length ++ p)
          ((8 + f.length + p.length) * 4)) (2 * s)
        = some (chunkOf (generate_signature f p.length ++ p) (2 * s)) :=
    fun s hs => readChunk_writeChunks g _ hch hw hs hn
  have hA : readLenGo (readChunk (writeChunks g (generate_signature f p.length ++ p)
      ((8 + f.length + p.length) * 4))) 0 16 = some f.length := by
    have h1 := readLenGo_eq
      (readChunk (writeChunks g (generate_signature f p.length ++ p)
        ((8 + f.length + p.length) * 4)))
      (fun k => chunkOf (generate_signature f p.length ++ p) (2 * k)) 0 16
      (by
        intro k hk
        have he : (0 : Nat) + 2 * k = 2 * k := by omega
        rw [he]
        exact hread k (by omega))
    rw [h1]
    congr 1
    have hc4 : ∀ k, k < 16 →
        chunkOf (generate_signature f p.length ++ p) (2 * k) < 4 :=
      fun k _ => chunkOf_lt _ _
    obtain ⟨hacc, -⟩ := headerAccF_eq_sumHdr _ hc4 16 (le_refl 16)
    rw [hacc]
    apply sumHdr_val _ _ hfl
    intro k hk
    have hbidx : 2 * k / 8 = k / 4 := by omega
    have hbo : bitOffset (2 * k) = 6 - 2 * (k % 4) := by unfold bitOffset; omega
    have hbyte : (generate_signature f p.length ++ p).getD (2 * k / 8) 0
        = f.length / 2 ^ (24 - 8 * (k / 4)) % 256 := by
      rw [hbidx]
      exact stream_byte_lo f p (k / 4) (by omega)
    rw [chunkOf_eq _ _ (by rw [hbyte]; omega), hbyte, hbo]
  have hB : readLenGo (readChunk (writeChunks g (generate_signature f p.length ++ p)
      ((8 + f.length + p.length) * 4))) 32 16 = some p.length := by
    have h1 := readLenGo_eq
      (readChunk (writeChunks g (generate_signature f p.length ++ p)
        ((8 + f.length + p.length) * 4)))
      (fun k => chunkOf (generate_signature f p.length ++ p) (2 * (16 + k))) 32 16
      (by
        intro k hk
        have he : 32 + 2 * k = 2 * (16 + k) := by omega
        rw [he]
        exact hread (16 + k) (by omega))
    rw [h1]
    congr 1
    have hc4 : ∀ k, k < 16 →
        chunkOf (generate_signature f p.length ++ p) (2 * (16 + k)) < 4 :=
      fun k _ => chunkOf_lt _ _
    obtain ⟨hacc, -⟩ := headerAccF_eq_sumHdr _ hc4 16 (le_refl 16)
    rw [hacc]
    apply sumHdr_val _ _ hpl
    intro k hk
    have hbidx : 2 * (16 + k) / 8 = 4 + k / 4 := by omega
    have hbo : bitOffset (2 * (16 + k)) = 6 - 2 * (k % 4) := by unfold bitOffset; omega
    have hbyte : (generate_signature f p.length ++ p).getD (2 * (16 + k) / 8) 0
        = p.length / 2 ^ (24 - 8 * (k / 4)) % 256 := by
      rw [hbidx]
      exact stream_byte_hi f p (k / 4) (by omega)
    rw [chunkOf_eq _ _ (by rw [hbyte]; omega), hbyte, hbo]
  have hC : readBytesGo (readChunk (writeChunks g (generate_signature f p.length ++ p)
      ((8 + f.length + p.length) * 4))) 64 f.length = some f := by
    have h1 := readBytesGo_eq
      (readChunk (writeChunks g (generate_signature f p.length ++ p)
        ((8 + f.length + p.length) * 4)))
      (fun k => chunkOf (generate_signature f p.length ++ p) (2 * (32 + k))) 64 f.length
      (by
        intro k hk
        have he : 64 + 2 * k = 2 * (32 + k) := by omega
        rw [he]
        exact hread (32 + k) (by omega))
    rw [h1]
    congr 1
    apply map_range_getD
    intro j hj
    have hjb : f.getD j 0 < 256 := by
      rw [List.getD_eq_getElem f 0 hj]
      exact hf _ (List.getElem_mem hj)
    apply byte_from_chunks _ hjb
    intro m hm
    have hbidx : 2 * (32 + (4 * j + m)) / 8 = 8 + j := by omega
    have hbo : bitOffset (2 * (32 + (4 * j + m))) = 6 - 2 * m := by
      unfold bitOffset; omega
    have hbyte : (generate_signature f p.length ++ p).getD (2 * (32 + (4 * j + m)) / 8) 0
        = f.getD j 0 := by
      rw [hbidx]
      exact stream_byte_name f p j hj
    simp only []
    rw [chunkOf_eq _ _ (by rw [hbyte]; omega), hbyte, hbo]
  have hD : readBytesGo (readChunk (writeChunks g (generate_signature f p.length ++ p)
      ((8 + f.length + p.length) * 4))) (64 + f.length * 8) p.length = some p := by
    have h1 := readBytesGo_eq
      (readChunk (writeChunks g (generate_signature f p.length ++ p)
        ((8 + f.length + p.length) * 4)))
      (fun k => chunkOf (generate_signature f p.length ++ p)
        (2 * (32 + 4 * f.length + k))) (64 + f.length * 8) p.length
      (by
        intro k hk
        have he : 64 + f.length * 8 + 2 * k = 2 * (32 + 4 * f.length + k) := by omega
        rw [he]
        exact hread (32 + 4 * f.length + k) (by omega))
    rw [h1]
    congr 1
    apply map_range_getD
    intro j hj
    have hjb : p.getD j 0 < 256 := by
      rw [List.getD_eq_getElem p 0 hj]
      exact hp _ (List.getElem_mem hj)
    apply byte_from_chunks _ hjb
    intro m hm
    have hbidx : 2 * (32 + 4 * f.length + (4 * j + m)) / 8 = 8 + f.length + j := by omega
    have hbo : bitOffset (2 * (32 + 4 * f.length + (4 * j + m))) = 6 - 2 * m := by
      unfold bitOffset; omega
    have hbyte : (generate_signature f p.length ++ p).getD
        (2 * (32 + 4 * f.length + (4 * j + m)) / 8) 0 = p.getD j 0 := by
      rw [hbidx]
      exact stream_byte_payload f p j hj
    simp only []
    rw [chunkOf_eq _ _ (by rw [hbyte]; omega), hbyte, hbo]
  simp only [read_data, extractChunks]
  rw [hA]
  simp only [Option.bind_eq_bind, Option.some_bind]
  rw [hB]
  simp only [Option.some_bind]
  rw [hC]
  simp only [Option.some_bind]
  rw [hD]
  simp only [Option.some_bind]
  rfl

/-- Length of the signature: 8 header bytes plus the filename. -/
lemma sig_length (f : List Nat) (n : Nat) :
    (generate_signature f n).length = 8 + f.length := by
  simp [generate_signature, beBytes32]
  omega

/-- Successful embed: when the stream fits, `write_data` stamps all
`(8 + |filename| + |payload|) * 4` chunks and reports no error. -/
lemma write_data_ok (g : Grid) (f p : List Nat)
    (hcap : (8 + f.length + p.length) * 8 ≤ maxDataBits g) :
    write_data g f p
      = (writeChunks g (generate_signature f p.length ++ p)
          ((8 + f.length + p.length) * 4), none) := by
  unfold write_data
  rw [sig_length]
  rw [if_neg (by omega)]
  have hcnt : ((8 + f.length) * 8 + p.length * 8) / 2 = (8 + f.length + p.length) * 4 := by
    omega
  rw [hcnt]

/-- Failed embed: when the stream does not fit, `write_data` leaves the
grid untouched and reports required and available byte counts. -/
lemma write_data_fail (g : Grid) (f p : List Nat)
    (hcap : (8 + f.length + p.length) * 8 > maxDataBits g) :
    write_data g f p
      = (g, some ((8 + f.length + p.length) * 8 / 8, maxDataBits g / 8)) := by
  unfold write_data
  rw [sig_length]
  rw [if_pos (by omega)]
  have hreq : ((8 + f.length) * 8 + p.length * 8) / 8 = (8 + f.length + p.length) * 8 / 8 := by
    omega
  rw [hreq]

/-- Every byte of the embedded stream is an 8-bit value (given 8-bit
filename and payload bytes). -/
lemma stream_byte_lt (f p : List Nat) (hf : ∀ b ∈ f, b < 256)
    (hp : ∀ b ∈ p, b < 256) (j : Nat) :
    (generate_signature f p.length ++ p).getD j 0 < 256 := by
  have hall : ∀ b ∈ generate_signature f p.length ++ p, b < 256 := by
    intro b hb
    rw [List.mem_append] at hb
    rcases hb with h | h
    · unfold generate_signature at h
      rw [List.mem_append, List.mem_append] at h
      rcases h with (h | h) | h
      · simp [beBytes32] at h
        rcases h with h | h | h | h <;> omega
      · simp [beBytes32] at h
        rcases h with h | h | h | h <;> omega
      · exact hf b h
    · exact hp b h
  rcases Nat.lt_or_ge j (generate_signature f p.length ++ p).length with h | h
  · rw [List.getD_eq_getElem _ 0 h]
    exact hall _ (List.getElem_mem h)
  · rw [List.getD_eq_default _ 0 h]
    norm_num

/-- A pixel with in-range row and column is inside the grid. -/
lemma pix_lt (w h r c : Nat) (hr : r < h) (hc : c < w) : r * w + c < w * h := by
  calc r * w + c < r * w + w := by omega
    _ = (r + 1) * w := by ring
    _ ≤ h * w := Nat.mul_le_mul_right w hr
    _ = w * h := Nat.mul_comm h w

/-! Claim theorems. -/

/-- C1: for every pixel grid (3 or 4 channels, 8-bit samples), filename and
payload (byte lists with 32-bit representable lengths) such that
`width*height*6 ≥ (filename_byte_count + payload_byte_count + 8)*8`,
extraction from the grid produced by embedding succeeds and returns exactly
the original filename and payload bytes. -/
theorem c1_roundtrip (g : Grid) (f p : List Nat)
    (hch : g.channels = 3 ∨ g.channels = 4)
    (hf : ∀ b ∈ f, b < 256) (hp : ∀ b ∈ p, b < 256)
    (hfl : f.length < 2 ^ 32) (hpl : p.length < 2 ^ 32)
    (hcap : (f.length + p.length + 8) * 8 ≤ g.width * g.height * 6) :
    (write_data g f p).2 = none ∧ read_data (write_data g f p).1 = some (f, p) := by
  have hcap2 : (8 + f.length + p.length) * 8 ≤ maxDataBits g := by
    unfold maxDataBits
    omega
  rw [write_data_ok g f p hcap2]
  exact ⟨rfl, read_after_write g f p hch hf hp hfl hpl hcap2⟩

/-- C1 witness: the round-trip theorem applied to the concrete 4×3 RGB grid
with filename `[97]` and empty payload (72 required bits = 72 capacity). -/
theorem c1_roundtrip_witness :
    ((gridA.channels = 3 ∨ gridA.channels = 4) ∧
      (([97] : List Nat).length + ([] : List Nat).length + 8) * 8
        ≤ gridA.width * gridA.height * 6) ∧
    ((write_data gridA [97] []).2 = none ∧
      read_data (write_data gridA [97] []).1 = some ([97], [])) :=
  ⟨⟨Or.inl rfl, by norm_num [gridA]⟩,
    c1_roundtrip gridA [97] [] (Or.inl rfl) (by decide) (by decide)
      (by norm_num) (by norm_num) (by norm_num [gridA])⟩

/-- C2: on the concrete grid `gridHdr` the decoded lengths
(`filename_length = 0`, `payload_length = 2`) exceed the remaining capacity
(`(0+2)*8 + 64 = 80 > 72` bits), the condition under which the claim says
`extract` fails with `TruncatedOrCorrupt`; the code performs no such
validation and instead runs its read loop past `width*height*3` usable
channels — an unchecked out-of-bounds access (modelled as `none`), not a
clean validation failure. -/
theorem c2_no_validation :
    readLenGo (readChunk gridHdr) 0 16 = some 0 ∧
    readLenGo (readChunk gridHdr) 32 16 = some 2 ∧
    (0 + 2) * 8 + 64 > gridHdr.width * gridHdr.height * 6 ∧
    read_data gridHdr = none :=
  ⟨by decide, by decide, by decide, by decide⟩

/-- C3: embedding succeeds exactly at the capacity boundary, and on
overflow it fails reporting `required_bits/8` versus `capacity_bits/8`
bytes with the grid returned byte-for-byte unchanged. -/
theorem c3_capacity_boundary (g : Grid) (f p : List Nat) :
    ((8 + f.length + p.length) * 8 = maxDataBits g → (write_data g f p).2 = none) ∧
    ((8 + f.length + p.length) * 8 > maxDataBits g →
      write_data g f p
        = (g, some ((8 + f.length + p.length) * 8 / 8, maxDataBits g / 8))) := by
  constructor
  · intro h
    rw [write_data_ok g f p (by omega)]
  · intro h
    exact write_data_fail g f p h

/-- C3 witness: on the 4×3 RGB grid, a 9-byte stream (72 bits) exactly fills
capacity and succeeds; a 10-byte stream (80 bits) fails reporting 10
required versus 9 available bytes with the grid unchanged. -/
theorem c3_capacity_boundary_witness :
    ((8 + ([97] : List Nat).length + ([] : List Nat).length) * 8 = maxDataBits gridA ∧
      (write_data gridA [97] []).2 = none) ∧
    ((8 + ([97] : List Nat).length + ([0] : List Nat).length) * 8 > maxDataBits gridA ∧
      write_data gridA [97] [0] = (gridA, some (10, 9))) := by
  constructor
  · exact ⟨by norm_num [gridA, maxDataBits],
      (c3_capacity_boundary gridA [97] []).1 (by norm_num [gridA, maxDataBits])⟩
  · refine ⟨by norm_num [gridA, maxDataBits], ?_⟩
    have h := (c3_capacity_boundary gridA [97] [0]).2 (by norm_num [gridA, maxDataBits])
    norm_num [gridA, maxDataBits] at h
    exact h

/-- C4: for every slot index and positive width, the channel address is
`channel = slot % 3`, `pixel = slot / 3`, `row = pixel / width`,
`col = pixel % width`, and the channel is never the alpha index 3.  These
are the very address functions used by `stampBit` (embed) and `readChunk`
(extract) through `sampleAddr`. -/
theorem c4_channel_address (w s : Nat) (hw : 0 < w) :
    colorOffset (2 * s) = s % 3 ∧ byteOffset (2 * s) = s / 3 ∧
    rowOf w (2 * s) = s / 3 / w ∧ colOf w (2 * s) = s / 3 % w ∧
    colorOffset (2 * s) ≠ 3 := by
  have h6 : 2 * s / 6 = s / 3 := by omega
  unfold colorOffset byteOffset rowOf colOf byteOffset
  refine ⟨by omega, h6, by rw [h6], by rw [h6], by omega⟩

/-- C4 witness: the address theorem at slot 7 in a width-5 grid. -/
theorem c4_channel_address_witness :
    (0 < 5) ∧
    (colorOffset (2 * 7) = 7 % 3 ∧ byteOffset (2 * 7) = 7 / 3 ∧
      rowOf 5 (2 * 7) = 7 / 3 / 5 ∧ colOf 5 (2 * 7) = 7 / 3 % 5 ∧
      colorOffset (2 * 7) ≠ 3) :=
  ⟨by decide, c4_channel_address 5 7 (by decide)⟩

/-- C5: the embedded bitstream is 4 big-endian bytes of filename length,
4 big-endian bytes of payload length, the filename bytes, then the payload
bytes; and a successful embed stamps, for every slot `s`, the 2-bit chunk
of stream byte `s/4` with the most-significant pair first (pair `s%4`,
shift `6 - 2*(s%4)`) into the low two bits of the addressed sample. -/
theorem c5_bitstream_layout (g : Grid) (f p : List Nat)
    (hch : g.channels = 3 ∨ g.channels = 4)
    (hf : ∀ b ∈ f, b < 256) (hp : ∀ b ∈ p, b < 256)
    (hcap : (8 + f.length + p.length) * 8 ≤ maxDataBits g) :
    generate_signature f p.length ++ p
      = [f.length / 2 ^ 24 % 256, f.length / 2 ^ 16 % 256, f.length / 2 ^ 8 % 256,
          f.length % 256, p.length / 2 ^ 24 % 256, p.length / 2 ^ 16 % 256,
          p.length / 2 ^ 8 % 256, p.length % 256] ++ f ++ p ∧
    (∀ s, s < (8 + f.length + p.length) * 4 →
      (write_data g f p).1.samples (slotAddr g s) % 4
        = (generate_signature f p.length ++ p).getD (s / 4) 0
            / 2 ^ (6 - 2 * (s % 4)) % 4) := by
  constructor
  · simp [generate_signature, beBytes32]
  · intro s hs
    rw [write_data_ok g f p hcap]
    simp only
    rw [writeChunks_touched g _ hch _ s hs]
    rw [stamp_val _ _ (chunkOf_lt _ _)]
    have hbo : bitOffset (2 * s) = 6 - 2 * (s % 4) := by unfold bitOffset; omega
    have hbi : 2 * s / 8 = s / 4 := by omega
    rw [chunkOf_eq _ _ (stream_byte_lt f p hf hp _), hbo, hbi]
    omega

/-- C5 witness: the layout theorem at the concrete grid and stream, and the
chunk equation at slot 5 (second pair of the payload-length field). -/
theorem c5_bitstream_layout_witness :
    ((8 + ([97] : List Nat).length + ([] : List Nat).length) * 8 ≤ maxDataBits gridA) ∧
    (write_data gridA [97] []).1.samples (slotAddr gridA 5) % 4
      = (generate_signature [97] ([] : List Nat).length ++ []).getD (5 / 4) 0
          / 2 ^ (6 - 2 * (5 % 4)) % 4 :=
  ⟨by norm_num [gridA, maxDataBits],
    (c5_bitstream_layout gridA [97] [] (Or.inl rfl) (by decide) (by decide)
      (by norm_num [gridA, maxDataBits])).2 5 (by norm_num)⟩

/-- C6: for every channel sample touched by a successful embed, the top six
bits are unchanged and the new bottom two bits equal the embedded chunk
value. -/
theorem c6_high_bit_preservation (g : Grid) (f p : List Nat)
    (hch : g.channels = 3 ∨ g.channels = 4)
    (hsam : ∀ a, g.samples a < 256)
    (hcap : (8 + f.length + p.length) * 8 ≤ maxDataBits g) :
    ∀ s, s < (8 + f.length + p.length) * 4 →
      (write_data g f p).1.samples (slotAddr g s) / 4 = g.samples (slotAddr g s) / 4 ∧
      (write_data g f p).1.samples (slotAddr g s) % 4
        = chunkOf (generate_signature f p.length ++ p) (2 * s) := by
  intro s hs
  rw [write_data_ok g f p hcap]
  simp only
  rw [writeChunks_touched g _ hch _ s hs, stamp_val _ _ (chunkOf_lt _ _)]
  have h1 := hsam (slotAddr g s)
  have h2 := chunkOf_lt (generate_signature f p.length ++ p) (2 * s)
  constructor <;> omega

/-- C6 witness: high-bit preservation at slot 3 of the concrete embed. -/
theorem c6_high_bit_preservation_witness :
    (∀ a, gridA.samples a < 256) ∧
    ((write_data gridA [97] []).1.samples (slotAddr gridA 3) / 4
        = gridA.samples (slotAddr gridA 3) / 4 ∧
      (write_data gridA [97] []).1.samples (slotAddr gridA 3) % 4
        = chunkOf (generate_signature [97] ([] : List Nat).length ++ []) (2 * 3)) :=
  ⟨fun a => by norm_num [gridA],
    c6_high_bit_preservation gridA [97] [] (Or.inl rfl) (fun a => by norm_num [gridA])
      (by norm_num [gridA, maxDataBits]) 3 (by norm_num)⟩

/-- C7: for a 4-channel grid, every alpha sample (channel index 3) is
bit-identical before and after a successful embed, and no address ever
formed by the codec (write or read paths both go through `sampleAddr`) has
channel index 3. -/
theorem c7_alpha_preservation (g : Grid) (f p : List Nat)
    (hch4 : g.channels = 4)
    (hcap : (8 + f.length + p.length) * 8 ≤ maxDataBits g) :
    (∀ pix, (write_data g f p).1.samples (pix * 4 + 3) = g.samples (pix * 4 + 3)) ∧
    (∀ i, sampleAddr g i % 4 ≠ 3) := by
  constructor
  · intro pix
    rw [write_data_ok g f p hcap]
    simp only
    apply writeChunks_untouched
    intro s hs heq
    rw [slotAddr_eq, hch4] at heq
    omega
  · intro i
    rw [sampleAddr_eq, hch4]
    omega

/-- C7 witness: alpha preservation for pixel 2 of the concrete RGBA embed. -/
theorem c7_alpha_preservation_witness :
    gridB.channels = 4 ∧
    (write_data gridB [97] []).1.samples (2 * 4 + 3) = gridB.samples (2 * 4 + 3) ∧
    sampleAddr gridB 10 % 4 ≠ 3 := by
  refine ⟨rfl, ?_, ?_⟩
  · exact (c7_alpha_preservation gridB [97] [] rfl
      (by norm_num [gridB, maxDataBits])).1 2
  · exact (c7_alpha_preservation gridB [97] [] rfl
      (by norm_num [gridB, maxDataBits])).2 10

/-- C8: after a successful embed of `n` chunks, every sample whose address
is not among the addresses of slots `0 … n-1` — including every alpha
sample and everything past the last chunk — is bit-identical to the input
grid. -/
theorem c8_untouched_tail (g : Grid) (f p : List Nat)
    (hcap : (8 + f.length + p.length) * 8 ≤ maxDataBits g) :
    ∀ a, (∀ s, s < (8 + f.length + p.length) * 4 → a ≠ slotAddr g s) →
      (write_data g f p).1.samples a = g.samples a := by
  intro a ha
  rw [write_data_ok g f p hcap]
  simp only
  exact writeChunks_untouched g _ _ a ha

/-- C8 witness: sample address 36 (first slot past the 36-chunk stream) is
untouched by the concrete embed. -/
theorem c8_untouched_tail_witness :
    (∀ s, s < (8 + ([97] : List Nat).length + ([] : List Nat).length) * 4
      → (36 : Nat) ≠ slotAddr gridA s) ∧
    (write_data gridA [97] []).1.samples 36 = gridA.samples 36 :=
  ⟨by decide,
    c8_untouched_tail gridA [97] [] (by norm_num [gridA, maxDataBits]) 36 (by decide)⟩

/-- C9: the header-field formula (OR of each chunk shifted to position
`30 - 2k` in one 32-bit accumulator, computed by `readLenGo`) and the
byte formula (OR of each chunk shifted to `6 - 2m` within successive
bytes, computed by `readByteGo`/`readBytesGo`) are semantically
equivalent: on the same chunk sequence the 32-bit word equals the
big-endian combination of the four reassembled bytes, so one unified
chunk-reassembly routine serves both header and body. -/
theorem c9_header_byte_formulas_equiv (c : Nat → Nat) (hc : ∀ k, k < 16 → c k < 4) :
    readLenGo (fun i => some (c (i / 2))) 0 16 = some (headerAccF c 16) ∧
    readBytesGo (fun i => some (c (i / 2))) 0 4
      = some ((List.range 4).map fun j => byteAccF (fun m => c (4 * j + m)) 4) ∧
    headerAccF c 16
      = ((byteAccF (fun m => c (4 * 0 + m)) 4 * 256
          + byteAccF (fun m => c (4 * 1 + m)) 4) * 256
          + byteAccF (fun m => c (4 * 2 + m)) 4) * 256
          + byteAccF (fun m => c (4 * 3 + m)) 4 := by
  refine ⟨?_, ?_, ?_⟩
  · apply readLenGo_eq
    intro k hk
    have h2 : (0 + 2 * k) / 2 = k := by omega
    simp only [h2]
  · apply readBytesGo_eq
    intro k hk
    have h2 : (0 + 2 * k) / 2 = k := by omega
    simp only [h2]
  · obtain ⟨hacc, -⟩ := headerAccF_eq_sumHdr c hc 16 (le_refl 16)
    rw [hacc]
    rw [byteAccF_val _ (fun m hm => hc (4 * 0 + m) (by omega)),
      byteAccF_val _ (fun m hm => hc (4 * 1 + m) (by omega)),
      byteAccF_val _ (fun m hm => hc (4 * 2 + m) (by omega)),
      byteAccF_val _ (fun m hm => hc (4 * 3 + m) (by omega))]
    simp only [sumHdr]
    norm_num
    ring

/-- C9 witness: the equivalence at the concrete chunk sequence `k % 4`. -/
theorem c9_header_byte_formulas_equiv_witness :
    (∀ k, k < 16 → k % 4 < 4) ∧
    headerAccF (fun k => k % 4) 16
      = ((byteAccF (fun m => (4 * 0 + m) % 4) 4 * 256
          + byteAccF (fun m => (4 * 1 + m) % 4) 4) * 256
          + byteAccF (fun m => (4 * 2 + m) % 4) 4) * 256
          + byteAccF (fun m => (4 * 3 + m) % 4) 4 :=
  ⟨fun k _ => by omega,
    (c9_header_byte_formulas_equiv (fun k => k % 4)
      (fun k _ => Nat.mod_lt _ (by norm_num))).2.2⟩

/-- C10: the extract path depends only on the two least-significant bits of
the usable (non-alpha) channel samples: two grids of equal width, height
and channel count that agree on `sample % 4` at every usable channel
address produce identical `read_data` results. -/
theorem c10_low_bits_determine_extract (g1 g2 : Grid)
    (hw : g1.width = g2.width) (hh : g1.height = g2.height)
    (hc : g1.channels = g2.channels)
    (hsam : ∀ pix, pix < g1.width * g1.height → ∀ ch, ch < 3 →
      g1.samples (pix * g1.channels + ch) % 4
        = g2.samples (pix * g2.channels + ch) % 4) :
    read_data g1 = read_data g2 := by
  unfold read_data
  have hrc : readChunk g1 = readChunk g2 := by
    funext i
    unfold readChunk
    rw [← hw, ← hh]
    by_cases hb : rowOf g1.width i < g1.height ∧ colOf g1.width i < g1.width
    · rw [if_pos hb, if_pos hb]
      congr 1
      rw [and_3_eq, and_3_eq]
      unfold sampleAddr
      rw [← hw]
      have hpix : rowOf g1.width i * g1.width + colOf g1.width i
          < g1.width * g1.height := pix_lt _ _ _ _ hb.1 hb.2
      exact hsam _ hpix (colorOffset i) (by unfold colorOffset; omega)
    · rw [if_neg hb, if_neg hb]
  rw [hrc]

/-- C10 witness: the all-zero grid and the grid with every high bit set
(low bits equal) extract identically. -/
theorem c10_low_bits_determine_extract_witness :
    (∀ pix, pix < gridA.width * gridA.height → ∀ ch, ch < 3 →
      gridA.samples (pix * gridA.channels + ch) % 4
        = gridC.samples (pix * gridC.channels + ch) % 4) ∧
    read_data gridA = read_data gridC :=
  ⟨by decide,
    c10_low_bits_determine_extract gridA gridC rfl rfl rfl (by decide)⟩

end Csteg
